import Mathlib

/-!
Shallow embedding of the table-slicing and chunking core of `xlsxcutter.py`:
`chunk_dataframe`, `sanitise_sheet_name`, `cell_to_indices`,
`prepare_table_slice`, and the naming logic of `split_excel` / `build_xlsx`.

Conventions of the embedding:
* Python strings are `List Char`; Python's `str.strip` / `str.upper` /
  `str.isalpha` / `str.isalnum` are modelled on the ASCII range, which is the
  only range the regular expression `^([A-Za-z]+)([0-9]+)$` of the source can
  feed into them.
* A pandas `DataFrame` is a list of rows.  Where only the row structure
  matters (chunking) a row is an arbitrary type; where cell text matters
  (slicing) a cell is `Option (List Char)`: `none` is a missing value (NaN)
  and `some s` holds the `str()` projection of the stored value.
* `raise ValueError(...)` is modelled by `Except.error` with one constructor
  per error category of the specification's taxonomy.
* Python loops whose iteration count is bounded by an obvious quantity are
  modelled with an explicit fuel argument equal to that bound, so that every
  definition stays executable by `decide` / `rfl`.
-/

inductive XlsxError where
  | invalidReference
  | invalidRange
  | outOfBounds
  | invalidChunkSize
  | emptyResult
deriving DecidableEq

/-- A cell of a sheet: `none` models a missing value (NaN), `some s` models a
value whose `str()` rendering is `s`. -/
abbrev Cell := Option (List Char)

/-- `str(value)` after `fillna("")`: a missing cell renders as the empty
string. -/
def cellText (c : Cell) : List Char :=
  match c with
  | none => []
  | some s => s

/-- The character class `[A-Za-z]` of `CELL_REF_RE`. -/
def isAsciiAlpha (c : Char) : Bool :=
  (65 ≤ c.toNat && c.toNat ≤ 90) || (97 ≤ c.toNat && c.toNat ≤ 122)

/-- The character class `[0-9]` of `CELL_REF_RE`. -/
def isAsciiDigit (c : Char) : Bool :=
  48 ≤ c.toNat && c.toNat ≤ 57

/-- The whitespace stripped by Python's `str.strip()` (ASCII range). -/
def pyIsSpace (c : Char) : Bool :=
  c == ' ' || c == '\t' || c == '\n' || c == '\r' || c == '\x0b' || c == '\x0c'

/-- Python's `str.upper()` on one character (ASCII range). -/
def pyToUpper (c : Char) : Char :=
  if 97 ≤ c.toNat && c.toNat ≤ 122 then Char.ofNat (c.toNat - 32) else c

/-- Python's `str.isalnum()` (ASCII range). -/
def pyIsAlnum (c : Char) : Bool :=
  isAsciiAlpha c || isAsciiDigit c

/-- Remove the trailing run of characters satisfying `p`. -/
def dropTrailing (p : Char → Bool) (l : List Char) : List Char :=
  (l.reverse.dropWhile p).reverse

/-- Python's `str.strip()`: remove leading and trailing whitespace. -/
def pyStrip (l : List Char) : List Char :=
  dropTrailing pyIsSpace (l.dropWhile pyIsSpace)

/-- Python's `str.strip("_")`: remove leading and trailing underscores. -/
def stripUnderscores (l : List Char) : List Char :=
  dropTrailing (fun c => c == '_') (l.dropWhile (fun c => c == '_'))

/-- `int(...)` on a string of decimal digits. -/
def digitsToNat (l : List Char) : Nat :=
  l.foldl (fun a c => a * 10 + (c.toNat - 48)) 0

/-- `CELL_REF_RE.match`: the string must be one or more ASCII letters followed
by one or more ASCII digits, with nothing else; on a match the two groups
(letters, digits) are returned.  Because the letter and digit classes are
disjoint, greedy scanning is exactly the regular expression
`^([A-Za-z]+)([0-9]+)$`. -/
def matchCellRef (s : List Char) : Option (List Char × List Char) :=
  let letters := s.takeWhile isAsciiAlpha
  let rest := s.dropWhile isAsciiAlpha
  let digits := rest.takeWhile isAsciiDigit
  let leftover := rest.dropWhile isAsciiDigit
  if letters.isEmpty || digits.isEmpty || !leftover.isEmpty then none
  else some (letters, digits)

/-- The column loop of `cell_to_indices`:
`for char in col_part.upper(): if not char.isalpha(): raise ...;
col_idx = col_idx * 26 + (ord(char) - ord("A") + 1)`. -/
def colLoop : Nat → List Char → Except XlsxError Nat
  | acc, [] => .ok acc
  | acc, c :: cs =>
    let u := pyToUpper c
    if isAsciiAlpha u then colLoop (acc * 26 + (u.toNat - 64)) cs
    else .error .invalidReference

/-- `cell_to_indices`: convert an Excel style cell reference (e.g. `B5`) to
zero based indices, or fail with `InvalidReference`. -/
def cell_to_indices (cell_ref : List Char) : Except XlsxError (Int × Int) :=
  match matchCellRef (pyStrip cell_ref) with
  | none => .error .invalidReference
  | some (col_part, row_part) =>
    let row_idx : Int := (digitsToNat row_part : Int) - 1
    if row_idx < 0 then .error .invalidReference
    else
      match colLoop 0 col_part with
      | .error e => .error e
      | .ok v =>
        let col_idx : Int := (v : Int) - 1
        if col_idx < 0 then .error .invalidReference
        else .ok (row_idx, col_idx)

/-- One character of the cleaning comprehension of `sanitise_sheet_name`:
`c if c.isalnum() or c in {"-", "_"} else "_"`. -/
def cleanChar (c : Char) : Char :=
  if pyIsAlnum c || c == '-' || c == '_' then c else '_'

/-- `sanitise_sheet_name`: keep alphanumeric characters and `-`/`_`, replace
everything else by `_`, strip leading/trailing underscores, fall back to
`"sheet"`. -/
def sanitise_sheet_name (name : List Char) : List Char :=
  let cleaned := (pyStrip name).map cleanChar
  let candidate := stripUnderscores cleaned
  if candidate.isEmpty then "sheet".toList else candidate

/-- The loop `for start in range(0, total_rows, rows_per_chunk)` of
`chunk_dataframe`, yielding `df.iloc[start:end]` at each step.  `fuel` bounds
the number of iterations; since `rows_per_chunk ≥ 1` at every call site,
`df.length` iterations always suffice. -/
def chunk_loop {α : Type} (k : Nat) : Nat → List α → List (List α)
  | _, [] => []
  | 0, _ :: _ => []
  | fuel + 1, x :: xs => (x :: xs).take k :: chunk_loop k fuel ((x :: xs).drop k)

/-- `chunk_dataframe`: yield DataFrame slices with `rows_per_chunk` rows.
Fails (`InvalidChunkSize`) when `rows_per_chunk ≤ 0`; yields the frame itself
once when it is empty. -/
def chunk_dataframe {α : Type} (df : List α) (rows_per_chunk : Int) :
    Except XlsxError (List (List α)) :=
  if rows_per_chunk ≤ 0 then .error .invalidChunkSize
  else if df.isEmpty then .ok [df]
  else .ok (chunk_loop rows_per_chunk.toNat df.length df)

/-- `MAX_EXCEL_ROWS = 1_048_576`. -/
def MAX_EXCEL_ROWS : Nat := 1048576

/-- Decimal digits of `m`, most significant first (`[]` for `0`).  The fuel
argument bounds the recursion depth; `m` itself always suffices. -/
def natToDigitsAux : Nat → Nat → List Char
  | _, 0 => []
  | 0, _ + 1 => []
  | fuel + 1, m + 1 =>
    natToDigitsAux fuel ((m + 1) / 10) ++ [Char.ofNat (48 + (m + 1) % 10)]

/-- The decimal rendering of a natural number, as Python's `str`/`format`
produce it inside f-strings. -/
def natToDigits (n : Nat) : List Char :=
  if n = 0 then ['0'] else natToDigitsAux n n

/-- Bijective base-26 rendering (A=1 … Z=26, AA=27 …) of `m`, most significant
first (`[]` for `0`); the inverse of the column decoding of
`cell_to_indices`.  The fuel argument bounds the recursion depth. -/
def encode26Aux : Nat → Nat → List Char
  | _, 0 => []
  | 0, _ + 1 => []
  | fuel + 1, m + 1 =>
    encode26Aux fuel (m / 26) ++ [Char.ofNat (65 + m % 26)]

/-- Bijective base-26 rendering of a positive column number. -/
def encode26 (n : Nat) : List Char :=
  encode26Aux n n

/-- Modelled from the spec: the column letters read as a bijective base-26
numeral (A=1, B=2, …, Z=26, AA=27, …), as section 4.1 describes the decoding. -/
def decode26 (letters : List Char) : Nat :=
  letters.foldl (fun a c => a * 26 + ((pyToUpper c).toNat - 64)) 0

/-- Modelled from the spec: re-encoding a zero-based (row, column) pair back
to a letters+digits cell reference, the inverse direction of section 8's
round-trip property (the source has no encoder of its own). -/
def encodeCell (row col : Nat) : List Char :=
  encode26 (col + 1) ++ natToDigits (row + 1)

/-- Python's `format(idx, "03d")`: decimal digits zero-padded to width 3. -/
def pad3 (n : Nat) : List Char :=
  let s := natToDigits n
  List.replicate (3 - s.length) '0' ++ s

/-- The result of `prepare_table_slice`: a header-named table (column names
plus data rows).  `pd.DataFrame()` is the empty frame `⟨[], []⟩`. -/
structure Frame where
  cols : List (List Char)
  data : List (List Cell)
deriving DecidableEq

/-- One header name: `str(value).strip() or f"Column {idx + 1}"`. -/
def headerName (idx : Nat) (c : Cell) : List Char :=
  let text := pyStrip (cellText c)
  if text.isEmpty then "Column ".toList ++ natToDigits (idx + 1) else text

/-- All header names of a header row, in positional order. -/
def headerNames (row : List Cell) : List (List Char) :=
  row.enum.map (fun p => headerName p.1 p.2)

/-- `~data.columns.duplicated()`: a mask that is `true` at the first
occurrence of each name and `false` at every later duplicate; `seen` carries
the names already passed. -/
def dupMask : List (List Char) → List (List Char) → List Bool
  | _, [] => []
  | seen, c :: cs => (!seen.contains c) :: dupMask (c :: seen) cs

/-- `data.loc[:, mask]`: keep the positions whose mask entry is `true`. -/
def maskFilter {α : Type} : List Bool → List α → List α
  | b :: bs, x :: xs => if b then x :: maskFilter bs xs else maskFilter bs xs
  | _, _ => []

/-- The sub-rectangle
`df.iloc[start_row : end_row + 1, start_col : end_col + 1]`. -/
def subRect (df : List (List Cell)) (sr er sc ec : Nat) : List (List Cell) :=
  ((df.drop sr).take (er + 1 - sr)).map (fun r => (r.drop sc).take (ec + 1 - sc))

/-- The tail of `prepare_table_slice` after the subset is extracted: return
the empty frame when the subset has at most one row, otherwise promote row 0
to header names and drop later duplicate-named columns
(`data.loc[:, ~data.columns.duplicated()]`). -/
def buildFrame : List (List Cell) → Frame
  | [] => ⟨[], []⟩
  | [_] => ⟨[], []⟩
  | header :: dataRows =>
    let columns := headerNames header
    let mask := dupMask [] columns
    ⟨maskFilter mask columns, dataRows.map (fun r => maskFilter mask r)⟩

/-- The end-cell resolution of `prepare_table_slice`: a provided end cell is
parsed and checked against the start (`InvalidRange`), an omitted one
defaults to the last row/column of the sheet. -/
def resolveEnd (nrows ncols : Nat) (start_row start_col : Int)
    (end_cell : Option (List Char)) : Except XlsxError (Int × Int) :=
  match end_cell with
  | some ec =>
    match cell_to_indices ec with
    | .error e => .error e
    | .ok (end_row, end_col) =>
      if end_row < start_row ∨ end_col < start_col then .error .invalidRange
      else .ok (end_row, end_col)
  | none => .ok ((nrows : Int) - 1, (ncols : Int) - 1)

/-- `prepare_table_slice`: slice `df` (of shape `df.length × ncols`) to the
given cell range, promote the first row of the range to headers, and drop
later duplicate-named columns. -/
def prepare_table_slice (df : List (List Cell)) (ncols : Nat)
    (start_cell : List Char) (end_cell : Option (List Char)) :
    Except XlsxError Frame :=
  match cell_to_indices start_cell with
  | .error e => .error e
  | .ok (start_row, start_col) =>
    match resolveEnd df.length ncols start_row start_col end_cell with
    | .error e => .error e
    | .ok (end_row, end_col) =>
      if start_row ≥ (df.length : Int) ∨ start_col ≥ (ncols : Int) then
        .error .outOfBounds
      else
        .ok (buildFrame (subRect df start_row.toNat
          (min end_row ((df.length : Int) - 1)).toNat
          start_col.toNat (min end_col ((ncols : Int) - 1)).toNat))

/-- Modelled from the spec (claim C3 wording): the sub-rectangle
`[sr..er, sc..ec]`, empty when it has 0 or 1 rows; otherwise row 0 becomes
the header (trimmed text, `Column {j+1}` for empties), any later column whose
resolved name equals an earlier column's name is dropped entirely, and rows
1.. become the data rows in original order. -/
def sliceSpec (df : List (List Cell)) (sr sc er ec : Nat) : Frame :=
  let sub := ((df.drop sr).take (er + 1 - sr)).map
    (fun r => (r.drop sc).take (ec + 1 - sc))
  if sub.length ≤ 1 then ⟨[], []⟩
  else
    let names := headerNames (sub.headD [])
    let keep := (List.range names.length).filter
      (fun j => !((names.take j).contains (names.getD j [])))
    ⟨keep.map (fun j => names.getD j []),
     (sub.drop 1).map (fun r => keep.map (fun j => r.getD j none))⟩

/-- Modelled from the spec (claim C9 wording): keep each alphanumeric, `-` or
`_` character, replace every other character with `_`, trim leading and
trailing `_`, and return `"sheet"` when the result is empty.  (Unlike the
source it does not pre-strip whitespace.) -/
def sanitiseSpec (name : List Char) : List Char :=
  let mapped := name.map cleanChar
  let trimmed := stripUnderscores mapped
  if trimmed.isEmpty then "sheet".toList else trimmed

/-- The `build_xlsx` flow after input validation: reject a non-positive
rows-per-sheet, clamp it to `MAX_EXCEL_ROWS`, reject an empty table, then
write each non-empty chunk as sheet `Sheet{idx}` with a 1-based enumeration
index.  The result lists the (sheet name, rows) pairs in written order. -/
def build_xlsx {α : Type} (df : List α) (rows_per_sheet : Int) :
    Except XlsxError (List (List Char × List α)) :=
  if rows_per_sheet ≤ 0 then .error .invalidChunkSize
  else
    let rps := min rows_per_sheet (MAX_EXCEL_ROWS : Int)
    if df.isEmpty then .error .emptyResult
    else
      match chunk_dataframe df rps with
      | .error e => .error e
      | .ok chunks =>
        .ok ((chunks.enumFrom 1).flatMap (fun p =>
          if p.2.isEmpty then [] else [("Sheet".toList ++ natToDigits p.1, p.2)]))

/-- The file names one chunk of `split_excel` produces, in the fixed
format-dictionary order xlsx, csv, json, ods. -/
def chunk_files (stem safe_sheet : List Char) (idx : Nat)
    (fx fc fj fo : Bool) : List (List Char) :=
  let base := stem ++ ('_' :: safe_sheet) ++ "_part".toList ++ pad3 idx
  (if fx then [base ++ ".xlsx".toList] else []) ++
  (if fc then [base ++ ".csv".toList] else []) ++
  (if fj then [base ++ ".json".toList] else []) ++
  (if fo then [base ++ ".ods".toList] else [])

/-- The `split_excel` flow after the table has been sliced: reject an empty
table ("The selected range does not contain data rows to split."), then for
each non-empty chunk of `chunk_dataframe(df, rows_per_file)` write one file
per selected format, named `{stem}_{safe_sheet}_part{idx:03d}.{ext}` with a
1-based enumeration index.  The result lists the file names in written
order. -/
def split_excel {α : Type} (stem sheet_name : List Char) (df : List α)
    (rows_per_file : Int) (fx fc fj fo : Bool) :
    Except XlsxError (List (List Char)) :=
  if df.isEmpty then .error .emptyResult
  else
    let safe_sheet := sanitise_sheet_name sheet_name
    match chunk_dataframe df rows_per_file with
    | .error e => .error e
    | .ok chunks =>
      .ok ((chunks.enumFrom 1).flatMap (fun p =>
        if p.2.isEmpty then [] else chunk_files stem safe_sheet p.1 fx fc fj fo))

/-- The extensions of the selected export formats, in dictionary order. -/
def selectedExts (fx fc fj fo : Bool) : List (List Char) :=
  (if fx then ["xlsx".toList] else []) ++
  (if fc then ["csv".toList] else []) ++
  (if fj then ["json".toList] else []) ++
  (if fo then ["ods".toList] else [])

/-- Modelled from the spec: the deterministic artifact-naming contract
`{stem}_{sanitized_sheet}_part{index:03d}.{ext}` of section 6. -/
def specFileNames (stem sheet_name : List Char) (idx : Nat)
    (fx fc fj fo : Bool) : List (List Char) :=
  (selectedExts fx fc fj fo).map (fun ext =>
    stem ++ ('_' :: sanitise_sheet_name sheet_name) ++ "_part".toList ++ pad3 idx ++ ('.' :: ext))

theorem chunk_loop_nil {α : Type} (k fuel : Nat) :
    chunk_loop (α := α) k fuel [] = [] := by
  cases fuel <;> rfl

theorem chunk_loop_cons {α : Type} (k fuel : Nat) (x : α) (xs : List α) :
    chunk_loop k (fuel + 1) (x :: xs) =
      (x :: xs).take k :: chunk_loop k fuel ((x :: xs).drop k) := rfl

/-- Ceiling-division step: removing the first `k` of `n ≥ 1` elements lowers
`⌈n / k⌉` by one. -/
theorem ceil_div_succ (n k : Nat) (hk : 0 < k) (hn : 0 < n) :
    (n + k - 1) / k = (n - k + k - 1) / k + 1 := by
  have h1 : n + k - 1 = (n - 1) + k := by omega
  rw [h1, Nat.add_div_right _ hk]
  rcases le_or_lt n k with hle | hlt
  · have h2 : n - k + k - 1 = k - 1 := by omega
    have h3 : (k - 1) / k = 0 := Nat.div_eq_of_lt (by omega)
    have h4 : (n - 1) / k = 0 := Nat.div_eq_of_lt (by omega)
    rw [h2, h3, h4]
  · have h2 : n - k + k - 1 = n - 1 := by omega
    rw [h2]

/-- With `k ≥ 1` and enough fuel, concatenating the chunks restores the list. -/
theorem chunk_loop_join {α : Type} (k : Nat) (hk : 1 ≤ k) :
    ∀ (fuel : Nat) (df : List α), df.length ≤ fuel →
      (chunk_loop k fuel df).flatten = df := by
  intro fuel
  induction fuel with
  | zero =>
    intro df h
    cases df with
    | nil => rfl
    | cons x xs => simp at h
  | succ n ih =>
    intro df h
    cases df with
    | nil => rfl
    | cons x xs =>
      rw [chunk_loop_cons, List.flatten_cons]
      rw [ih ((x :: xs).drop k) ?_, List.take_append_drop]
      simp only [List.length_cons] at h
      simp only [List.length_drop, List.length_cons]
      omega

/-- With `k ≥ 1` and enough fuel, the number of chunks is `⌈length / k⌉`. -/
theorem chunk_loop_length {α : Type} (k : Nat) (hk : 1 ≤ k) :
    ∀ (fuel : Nat) (df : List α), df.length ≤ fuel →
      (chunk_loop k fuel df).length = (df.length + k - 1) / k := by
  intro fuel
  induction fuel with
  | zero =>
    intro df h
    cases df with
    | nil =>
      rw [chunk_loop_nil]
      simp only [List.length_nil]
      exact (Nat.div_eq_of_lt (by omega)).symm
    | cons x xs => simp at h
  | succ n ih =>
    intro df h
    cases df with
    | nil =>
      rw [chunk_loop_nil]
      simp only [List.length_nil]
      exact (Nat.div_eq_of_lt (by omega)).symm
    | cons x xs =>
      rw [chunk_loop_cons]
      simp only [List.length_cons]
      rw [ih ((x :: xs).drop k) ?_]
      · simp only [List.length_drop, List.length_cons]
        exact (ceil_div_succ (xs.length + 1) k hk (by omega)).symm
      · simp only [List.length_cons] at h
        simp only [List.length_drop, List.length_cons]
        omega

theorem take_min_length {β : Type} (l : List β) (a : Nat) :
    l.take (min a l.length) = l.take a := by
  induction l generalizing a with
  | nil => simp
  | cons x xs ih =>
    cases a with
    | zero => simp
    | succ a =>
      simp only [List.length_cons, Nat.succ_min_succ, List.take_succ_cons]
      rw [ih]

/-- With `k ≥ 1` and enough fuel, the `i`-th chunk is rows
`[i*k, i*k + k)` of the list. -/
theorem chunk_loop_get {α : Type} (k : Nat) (hk : 1 ≤ k) :
    ∀ (i fuel : Nat) (df : List α), df.length ≤ fuel → i * k < df.length →
      (chunk_loop k fuel df)[i]? = some ((df.drop (i * k)).take k) := by
  intro i
  induction i with
  | zero =>
    intro fuel df hf h0
    cases df with
    | nil => simp at h0
    | cons x xs =>
      cases fuel with
      | zero => simp at hf
      | succ m =>
        rw [chunk_loop_cons]
        simp
  | succ i ih =>
    intro fuel df hf h
    cases df with
    | nil => simp at h
    | cons x xs =>
      cases fuel with
      | zero => simp at hf
      | succ m =>
        rw [chunk_loop_cons, List.getElem?_cons_succ]
        have h1 : ((x :: xs).drop k).length ≤ m := by
          simp only [List.length_drop, List.length_cons]
          simp only [List.length_cons] at hf
          omega
        have hsm : (i + 1) * k = i * k + k := by ring
        have h2 : i * k < ((x :: xs).drop k).length := by
          simp only [List.length_drop, List.length_cons]
          simp only [List.length_cons] at h
          omega
        rw [ih m ((x :: xs).drop k) h1 h2, List.drop_drop]
        have h3 : i * k + k = (i + 1) * k := hsm.symm
        have h4 : k + i * k = (i + 1) * k := by omega
        rw [h4]

/-- Every chunk the loop yields has at most `k` rows, and at least one row
when `k ≥ 1`. -/
theorem chunk_loop_mem {α : Type} (k : Nat) :
    ∀ (fuel : Nat) (df : List α) (c : List α), c ∈ chunk_loop k fuel df →
      c.length ≤ k ∧ (1 ≤ k → c ≠ []) := by
  intro fuel
  induction fuel with
  | zero =>
    intro df c h
    cases df with
    | nil => rw [chunk_loop_nil] at h; simp at h
    | cons x xs => simp [chunk_loop] at h
  | succ m ih =>
    intro df c h
    cases df with
    | nil => rw [chunk_loop_nil] at h; simp at h
    | cons x xs =>
      rw [chunk_loop_cons] at h
      rcases List.mem_cons.mp h with hc | hc
      · subst hc
        constructor
        · simp
        · intro hk
          cases k with
          | zero => omega
          | succ j => simp
      · exact ih _ _ hc

/-- Claim C1: for a table with `R ≥ 1` data rows and a chunk size `K ≥ 1`,
`chunk_dataframe` succeeds with exactly `⌈R / K⌉` chunks, the `i`-th covering
rows `[i*K, min((i+1)*K, R))` in original order; concatenating the chunks
reproduces the table, and every chunk except possibly the last has exactly
`K` rows. -/
theorem chunk_dataframe_partition (α : Type) (df : List α) (K : Int)
    (hR : 1 ≤ df.length) (hK : 1 ≤ K) :
    ∃ chunks : List (List α), chunk_dataframe df K = .ok chunks ∧
      chunks.length = (df.length + K.toNat - 1) / K.toNat ∧
      (∀ i : Nat, i < chunks.length →
        chunks[i]? = some ((df.drop (i * K.toNat)).take
          (min ((i + 1) * K.toNat) df.length - i * K.toNat))) ∧
      chunks.flatten = df ∧
      (∀ i : Nat, i + 1 < chunks.length →
        ∃ c, chunks[i]? = some c ∧ c.length = K.toNat) := by
  have hk : 1 ≤ K.toNat := by omega
  have hk0 : 0 < K.toNat := hk
  have hne : df.isEmpty = false := by
    cases df with
    | nil => simp at hR
    | cons x xs => rfl
  have hKle : ¬ K ≤ 0 := by omega
  have hceil : (df.length + K.toNat - 1) / K.toNat = (df.length - 1) / K.toNat + 1 := by
    rw [show df.length + K.toNat - 1 = (df.length - 1) + K.toNat by omega,
      Nat.add_div_right _ hk0]
  refine ⟨chunk_loop K.toNat df.length df, ?_, ?_, ?_, ?_, ?_⟩
  · simp [chunk_dataframe, hKle, hne]
  · exact chunk_loop_length K.toNat hk df.length df le_rfl
  · intro i hi
    rw [chunk_loop_length K.toNat hk df.length df le_rfl, hceil] at hi
    have hsm : (i + 1) * K.toNat = i * K.toNat + K.toNat := by ring
    have hik : i * K.toNat < df.length := by
      have h1 : i ≤ (df.length - 1) / K.toNat := by omega
      have h2 := (Nat.le_div_iff_mul_le hk0).mp h1
      have h3 : i * K.toNat ≤ df.length - 1 := h2
      omega
    rw [chunk_loop_get K.toNat hk i df.length df le_rfl hik]
    have h4 : min ((i + 1) * K.toNat) df.length - i * K.toNat =
        min K.toNat ((df.drop (i * K.toNat)).length) := by
      simp only [List.length_drop]
      omega
    rw [h4, take_min_length]
  · exact chunk_loop_join K.toNat hk df.length df le_rfl
  · intro i hi
    rw [chunk_loop_length K.toNat hk df.length df le_rfl, hceil] at hi
    have hsm : (i + 1) * K.toNat = i * K.toNat + K.toNat := by ring
    have h1 : i + 1 ≤ (df.length - 1) / K.toNat := by omega
    have h2 : (i + 1) * K.toNat ≤ df.length - 1 :=
      (Nat.le_div_iff_mul_le hk0).mp h1
    have hik : i * K.toNat < df.length := by omega
    refine ⟨(df.drop (i * K.toNat)).take K.toNat,
      chunk_loop_get K.toNat hk i df.length df le_rfl hik, ?_⟩
    simp only [List.length_take, List.length_drop]
    omega

/-- Claim C1 witness: a 5-row table with `K = 2`. -/
theorem chunk_dataframe_partition_witness :
    (1 ≤ ([10, 20, 30, 40, 50] : List Nat).length) ∧ (1 ≤ (2 : Int)) ∧
    (∃ chunks : List (List Nat),
      chunk_dataframe ([10, 20, 30, 40, 50] : List Nat) 2 = .ok chunks ∧
      chunks.length = (([10, 20, 30, 40, 50] : List Nat).length + (2 : Int).toNat - 1) / (2 : Int).toNat ∧
      (∀ i : Nat, i < chunks.length →
        chunks[i]? = some ((([10, 20, 30, 40, 50] : List Nat).drop (i * (2 : Int).toNat)).take
          (min ((i + 1) * (2 : Int).toNat) ([10, 20, 30, 40, 50] : List Nat).length - i * (2 : Int).toNat))) ∧
      chunks.flatten = [10, 20, 30, 40, 50] ∧
      (∀ i : Nat, i + 1 < chunks.length →
        ∃ c, chunks[i]? = some c ∧ c.length = (2 : Int).toNat)) :=
  ⟨by decide, by decide,
    chunk_dataframe_partition Nat [10, 20, 30, 40, 50] 2 (by decide) (by decide)⟩

/-- Claim C7: `chunk_dataframe` fails with `InvalidChunkSize` for every
`K ≤ 0`, and for a zero-row table with `K ≥ 1` it produces exactly one chunk
containing the empty table. -/
theorem chunk_dataframe_boundary (α : Type) (df : List α) (K : Int) :
    (K ≤ 0 → chunk_dataframe df K = .error .invalidChunkSize) ∧
    (df = [] → 1 ≤ K → chunk_dataframe df K = .ok [df]) := by
  constructor
  · intro h
    simp [chunk_dataframe, h]
  · intro hdf hK
    subst hdf
    simp [chunk_dataframe, show ¬ (K ≤ 0) by omega]

/-- Claim C7 witness: `K = 0`, `K = -5`, and the zero-row table. -/
theorem chunk_dataframe_boundary_witness :
    chunk_dataframe ([5, 6] : List Nat) 0 = .error .invalidChunkSize ∧
    chunk_dataframe ([5, 6] : List Nat) (-5) = .error .invalidChunkSize ∧
    chunk_dataframe ([] : List Nat) 7 = .ok [[]] :=
  ⟨(chunk_dataframe_boundary Nat [5, 6] 0).1 (by decide),
   (chunk_dataframe_boundary Nat [5, 6] (-5)).1 (by decide),
   (chunk_dataframe_boundary Nat [] 7).2 rfl (by decide)⟩

/-- Claim C10: for every table, including the zero-row one, a chunk size
`K ≤ 0` fails with `InvalidChunkSize`: the size validation precedes the
one-empty-chunk branch. -/
theorem chunk_dataframe_size_check_first (α : Type) (df : List α) (K : Int)
    (hK : K ≤ 0) : chunk_dataframe df K = .error .invalidChunkSize := by
  simp [chunk_dataframe, hK]

/-- Claim C10 witness: the zero-row table with `K = -3`. -/
theorem chunk_dataframe_size_check_first_witness :
    chunk_dataframe ([] : List Nat) (-3) = .error .invalidChunkSize :=
  chunk_dataframe_size_check_first Nat [] (-3) (by decide)

theorem mem_enumFrom_snd {α : Type} :
    ∀ (l : List α) (n : Nat) (p : Nat × α), p ∈ l.enumFrom n → p.2 ∈ l := by
  intro l
  induction l with
  | nil => intro n p h; simp at h
  | cons x xs ih =>
    intro n p h
    rw [List.enumFrom_cons] at h
    rcases List.mem_cons.mp h with h | h
    · subst h; exact List.mem_cons_self _ _
    · exact List.mem_cons_of_mem _ (ih (n + 1) p h)

/-- Claim C5: in the assemble flow the caller-supplied rows-per-sheet is
clamped to the workbook ceiling `MAX_EXCEL_ROWS`, and no produced sheet
exceeds that ceiling, even when the caller requests a larger value. -/
theorem build_xlsx_clamped (α : Type) (df : List α) (K : Int)
    (sheets : List (List Char × List α)) (h : build_xlsx df K = .ok sheets) :
    build_xlsx df K = build_xlsx df (min K (MAX_EXCEL_ROWS : Int)) ∧
    ∀ s ∈ sheets, s.2.length ≤ MAX_EXCEL_ROWS := by
  have hM : (MAX_EXCEL_ROWS : Int) = 1048576 := rfl
  have hKpos : ¬ K ≤ 0 := by
    intro hK
    simp [build_xlsx, hK] at h
  have hne : df.isEmpty = false := by
    cases hdf : df.isEmpty with
    | true => simp [build_xlsx, hKpos, hdf] at h
    | false => rfl
  have hrps : ¬ min K (MAX_EXCEL_ROWS : Int) ≤ 0 := by omega
  have hchunk : chunk_dataframe df (min K (MAX_EXCEL_ROWS : Int)) =
      .ok (chunk_loop (min K (MAX_EXCEL_ROWS : Int)).toNat df.length df) := by
    simp [chunk_dataframe, hne, hrps]
  have hmain : build_xlsx df K =
      .ok (((chunk_loop (min K (MAX_EXCEL_ROWS : Int)).toNat df.length df).enumFrom 1).flatMap
        (fun p => if p.2.isEmpty then []
          else [("Sheet".toList ++ natToDigits p.1, p.2)])) := by
    simp [build_xlsx, hKpos, hne, hchunk]
  have hsheets : sheets =
      ((chunk_loop (min K (MAX_EXCEL_ROWS : Int)).toNat df.length df).enumFrom 1).flatMap
        (fun p => if p.2.isEmpty then []
          else [("Sheet".toList ++ natToDigits p.1, p.2)]) := by
    rw [hmain] at h
    exact (Except.ok.inj h).symm
  constructor
  · rw [hmain]
    have hmm : min (min K (MAX_EXCEL_ROWS : Int)) (MAX_EXCEL_ROWS : Int) =
        min K (MAX_EXCEL_ROWS : Int) := by omega
    simp [build_xlsx, hrps, hne, hchunk, hmm]
  · intro s hs
    rw [hsheets] at hs
    rcases List.mem_flatMap.mp hs with ⟨p, hp, hsp⟩
    cases hpe : p.2.isEmpty with
    | true => rw [hpe] at hsp; simp at hsp
    | false =>
      rw [hpe] at hsp
      simp at hsp
      subst hsp
      have hmem := mem_enumFrom_snd _ _ _ hp
      have hle := (chunk_loop_mem (min K (MAX_EXCEL_ROWS : Int)).toNat _ _ _ hmem).1
      have : (min K (MAX_EXCEL_ROWS : Int)).toNat ≤ MAX_EXCEL_ROWS := by omega
      simpa using le_trans hle this

/-- Claim C5 witness: a 3-row table with a requested 2,000,000 rows per
sheet. -/
theorem build_xlsx_clamped_witness :
    build_xlsx ([0, 1, 2] : List Nat) 2000000 =
      build_xlsx ([0, 1, 2] : List Nat) (min 2000000 (MAX_EXCEL_ROWS : Int)) ∧
    (("Sheet1".toList, ([0, 1, 2] : List Nat))).2.length ≤ MAX_EXCEL_ROWS := by
  have h : build_xlsx ([0, 1, 2] : List Nat) 2000000 =
      .ok [("Sheet1".toList, [0, 1, 2])] := by rfl
  exact ⟨(build_xlsx_clamped Nat [0, 1, 2] 2000000 _ h).1,
    (build_xlsx_clamped Nat [0, 1, 2] 2000000 _ h).2 _ (by simp)⟩

theorem cleanChar_of_space (c : Char) (h : pyIsSpace c = true) :
    cleanChar c = '_' := by
  simp only [pyIsSpace, Bool.or_eq_true, beq_iff_eq] at h
  rcases h with ((((h | h) | h) | h) | h) | h <;> subst h <;> decide

theorem dropTrailing_cons (P : Char → Bool) (c : Char) (t : List Char) :
    dropTrailing P (c :: t) =
      if P c = true ∧ ∀ x ∈ t, P x = true then [] else c :: dropTrailing P t := by
  by_cases hall : ∀ x ∈ t, P x = true
  · have hnil : t.reverse.dropWhile P = [] := by
      rw [List.dropWhile_eq_nil_iff]
      intro x hx
      exact hall x (List.mem_reverse.mp hx)
    unfold dropTrailing
    rw [List.reverse_cons, List.dropWhile_append, hnil]
    by_cases hc : P c = true
    · rw [if_pos (show P c = true ∧ ∀ x ∈ t, P x = true from ⟨hc, hall⟩)]
      simp [List.dropWhile_cons, hc]
    · rw [if_neg (show ¬ (P c = true ∧ ∀ x ∈ t, P x = true) from fun h => hc h.1)]
      have hcf : P c = false := Bool.not_eq_true _ |>.mp hc
      simp [List.dropWhile_cons, hcf, hnil]
  · have hne : (t.reverse.dropWhile P).isEmpty = false := by
      cases hdw : t.reverse.dropWhile P with
      | nil =>
        rw [List.dropWhile_eq_nil_iff] at hdw
        exact absurd (fun x hx => hdw x (List.mem_reverse.mpr hx)) hall
      | cons a l => rfl
    rw [if_neg (show ¬ (P c = true ∧ ∀ x ∈ t, P x = true) from fun h => hall h.2)]
    unfold dropTrailing
    rw [List.reverse_cons, List.dropWhile_append, hne]
    simp

theorem dropWhile_dropTrailing_comm (P : Char → Bool) (w : List Char) :
    dropTrailing P (w.dropWhile P) = (dropTrailing P w).dropWhile P := by
  induction w with
  | nil => rfl
  | cons c t ih =>
    rw [dropTrailing_cons]
    by_cases hc : P c = true
    · by_cases hall : ∀ x ∈ t, P x = true
      · rw [if_pos (show P c = true ∧ ∀ x ∈ t, P x = true from ⟨hc, hall⟩)]
        have hnil : t.dropWhile P = [] := List.dropWhile_eq_nil_iff.mpr hall
        rw [List.dropWhile_cons, if_pos hc, hnil]
        rfl
      · rw [if_neg (show ¬ (P c = true ∧ ∀ x ∈ t, P x = true) from fun h => hall h.2)]
        rw [List.dropWhile_cons, if_pos hc, List.dropWhile_cons, if_pos hc]
        exact ih
    · rw [if_neg (show ¬ (P c = true ∧ ∀ x ∈ t, P x = true) from fun h => hc h.1)]
      rw [List.dropWhile_cons, if_neg hc, List.dropWhile_cons, if_neg hc,
        dropTrailing_cons,
        if_neg (show ¬ (P c = true ∧ ∀ x ∈ t, P x = true) from fun h => hc h.1)]

theorem stripUnderscores_reverse (y : List Char) :
    stripUnderscores y.reverse = (stripUnderscores y).reverse := by
  have h1 : ∀ x : List Char,
      dropTrailing (fun c => c == '_') x.reverse = (x.dropWhile (fun c => c == '_')).reverse := by
    intro x
    unfold dropTrailing
    rw [List.reverse_reverse]
  have h2 : ∀ x : List Char,
      (x.reverse).dropWhile (fun c => c == '_') = (dropTrailing (fun c => c == '_') x).reverse := by
    intro x
    unfold dropTrailing
    rw [List.reverse_reverse]
  unfold stripUnderscores
  rw [h2, h1, ← dropWhile_dropTrailing_comm]

theorem dropWhile_und_map_clean_strip (l : List Char) :
    ((l.dropWhile pyIsSpace).map cleanChar).dropWhile (fun c => c == '_') =
    (l.map cleanChar).dropWhile (fun c => c == '_') := by
  induction l with
  | nil => rfl
  | cons c t ih =>
    cases hsp : pyIsSpace c with
    | false => rw [List.dropWhile_cons, if_neg (by simp [hsp])]
    | true =>
      rw [List.dropWhile_cons, if_pos hsp, List.map_cons, cleanChar_of_space c hsp,
        List.dropWhile_cons, if_pos (by simp)]
      exact ih

theorem strip_front_clean (l : List Char) :
    stripUnderscores ((l.dropWhile pyIsSpace).map cleanChar) =
    stripUnderscores (l.map cleanChar) := by
  unfold stripUnderscores
  rw [dropWhile_und_map_clean_strip]

theorem strip_back_clean (y : List Char) :
    stripUnderscores ((dropTrailing pyIsSpace y).map cleanChar) =
    stripUnderscores (y.map cleanChar) := by
  have h0 : dropTrailing pyIsSpace y = (y.reverse.dropWhile pyIsSpace).reverse := rfl
  rw [h0, List.map_reverse, stripUnderscores_reverse, strip_front_clean,
    List.map_reverse, stripUnderscores_reverse, List.reverse_reverse]

/-- Claim C9: `sanitise_sheet_name` behaves exactly as specified — keep
alphanumerics and `-`/`_`, replace every other character by `_`, trim
leading/trailing `_`, and fall back to `"sheet"` when the result is empty; it
is a pure total function of the input, and the source's additional leading
whitespace-strip is unobservable.  Includes the two specification examples. -/
theorem sanitise_sheet_name_spec :
    (∀ name : List Char, sanitise_sheet_name name = sanitiseSpec name) ∧
    sanitise_sheet_name ("Q1 Report/2024".toList) = "Q1_Report_2024".toList ∧
    sanitise_sheet_name ("***".toList) = "sheet".toList := by
  refine ⟨?_, by decide, by decide⟩
  intro name
  simp only [sanitise_sheet_name, sanitiseSpec, pyStrip]
  rw [strip_back_clean, strip_front_clean]

theorem char_toNat_ofNat (n : Nat) (h : n.isValidChar) :
    (Char.ofNat n).toNat = n := by
  unfold Char.ofNat
  rw [dif_pos h]
  rfl

theorem char_ofNat_toNat (c : Char) : Char.ofNat c.toNat = c := by
  unfold Char.ofNat
  rw [dif_pos (show c.toNat.isValidChar from c.valid)]
  rfl

theorem isValidChar_of_lt (n : Nat) (h : n < 55296) : n.isValidChar :=
  Or.inl h

theorem space_toNat_le (c : Char) (h : pyIsSpace c = true) : c.toNat ≤ 32 := by
  simp only [pyIsSpace, Bool.or_eq_true, beq_iff_eq] at h
  rcases h with ((((h | h) | h) | h) | h) | h <;> subst h <;> decide

theorem alpha_not_space (c : Char) (h : isAsciiAlpha c = true) :
    pyIsSpace c = false := by
  cases hs : pyIsSpace c with
  | false => rfl
  | true =>
    have h1 := space_toNat_le c hs
    simp only [isAsciiAlpha, Bool.or_eq_true, Bool.and_eq_true,
      decide_eq_true_eq] at h
    omega

theorem digit_not_space (c : Char) (h : isAsciiDigit c = true) :
    pyIsSpace c = false := by
  cases hs : pyIsSpace c with
  | false => rfl
  | true =>
    have h1 := space_toNat_le c hs
    simp only [isAsciiDigit, Bool.and_eq_true, decide_eq_true_eq] at h
    omega

theorem digit_not_alpha (c : Char) (h : isAsciiDigit c = true) :
    isAsciiAlpha c = false := by
  cases ha : isAsciiAlpha c with
  | false => rfl
  | true =>
    simp only [isAsciiDigit, Bool.and_eq_true, decide_eq_true_eq] at h
    simp only [isAsciiAlpha, Bool.or_eq_true, Bool.and_eq_true,
      decide_eq_true_eq] at ha
    omega

/-- On an ASCII letter, `pyToUpper` lands in `[65, 90]` and is recovered by
`Char.ofNat` from its code point. -/
theorem pyToUpper_spec (c : Char) (h : isAsciiAlpha c = true) :
    65 ≤ (pyToUpper c).toNat ∧ (pyToUpper c).toNat ≤ 90 ∧
      Char.ofNat ((pyToUpper c).toNat) = pyToUpper c := by
  simp only [isAsciiAlpha, Bool.or_eq_true, Bool.and_eq_true,
    decide_eq_true_eq] at h
  unfold pyToUpper
  by_cases hl : 97 ≤ c.toNat ∧ c.toNat ≤ 122
  · rw [if_pos (by simp [hl.1, hl.2])]
    have hv : (c.toNat - 32).isValidChar := isValidChar_of_lt _ (by omega)
    rw [char_toNat_ofNat _ hv]
    exact ⟨by omega, by omega, rfl⟩
  · rw [if_neg (by simp only [Bool.and_eq_true, decide_eq_true_eq]; omega)]
    exact ⟨by omega, by omega, char_ofNat_toNat c⟩

theorem digit_toUpper_self (c : Char) (h : isAsciiDigit c = true) :
    pyToUpper c = c := by
  simp only [isAsciiDigit, Bool.and_eq_true, decide_eq_true_eq] at h
  unfold pyToUpper
  rw [if_neg (by simp only [Bool.and_eq_true, decide_eq_true_eq]; omega)]

theorem digit_toNat_eq_48 (c : Char) (h : isAsciiDigit c = true)
    (h0 : c ≠ '0') : c.toNat ≠ 48 := by
  intro he
  apply h0
  have := char_ofNat_toNat c
  rw [he] at this
  exact this.symm ▸ rfl

theorem encode26Aux_zero (f : Nat) : encode26Aux f 0 = [] := by
  cases f <;> rfl

theorem encode26Aux_congr :
    ∀ (f1 f2 m : Nat), m ≤ f1 → m ≤ f2 → encode26Aux f1 m = encode26Aux f2 m := by
  intro f1
  induction f1 with
  | zero =>
    intro f2 m h1 h2
    have hm : m = 0 := by omega
    subst hm
    rw [encode26Aux_zero, encode26Aux_zero]
  | succ g ih =>
    intro f2 m h1 h2
    cases m with
    | zero => rw [encode26Aux_zero, encode26Aux_zero]
    | succ n =>
      cases f2 with
      | zero => omega
      | succ g2 =>
        have e1 : encode26Aux (g + 1) (n + 1) =
            encode26Aux g (n / 26) ++ [Char.ofNat (65 + n % 26)] := rfl
        have e2 : encode26Aux (g2 + 1) (n + 1) =
            encode26Aux g2 (n / 26) ++ [Char.ofNat (65 + n % 26)] := rfl
        have hd : n / 26 ≤ n := Nat.div_le_self n 26
        rw [e1, e2, ih g2 (n / 26) (by omega) (by omega)]

theorem encode26_step (a v : Nat) (h1 : 1 ≤ v) (h2 : v ≤ 26) :
    encode26 (a * 26 + v) = encode26 a ++ [Char.ofNat (64 + v)] := by
  have hm : a * 26 + v = (a * 26 + (v - 1)) + 1 := by omega
  have hdiv : (a * 26 + (v - 1)) / 26 = a := by
    rw [show a * 26 + (v - 1) = 26 * a + (v - 1) by ring,
      Nat.mul_add_div (by omega), Nat.div_eq_of_lt (by omega)]
    omega
  have hmod : (a * 26 + (v - 1)) % 26 = v - 1 := by
    rw [show a * 26 + (v - 1) = 26 * a + (v - 1) by ring,
      Nat.mul_add_mod, Nat.mod_eq_of_lt (by omega)]
  have hle : a ≤ a * 26 + (v - 1) := by
    have := Nat.le_mul_of_pos_right a (show 0 < 26 by omega)
    omega
  have e1 : encode26 (a * 26 + v) =
      encode26Aux (a * 26 + (v - 1)) ((a * 26 + (v - 1)) / 26) ++
        [Char.ofNat (65 + (a * 26 + (v - 1)) % 26)] := by
    rw [show encode26 (a * 26 + v) = encode26Aux (a * 26 + v) (a * 26 + v) from rfl, hm]
    rfl
  rw [e1, hdiv, hmod, encode26Aux_congr _ a a hle le_rfl,
    show 65 + (v - 1) = 64 + v by omega]
  rfl

theorem decode26_foldl_mono :
    ∀ (L : List Char) (acc : Nat),
      acc ≤ L.foldl (fun a c => a * 26 + ((pyToUpper c).toNat - 64)) acc := by
  intro L
  induction L with
  | nil => intro acc; exact le_rfl
  | cons c cs ih =>
    intro acc
    rw [List.foldl_cons]
    refine le_trans ?_ (ih (acc * 26 + ((pyToUpper c).toNat - 64)))
    have := Nat.le_mul_of_pos_right acc (show 0 < 26 by omega)
    omega

theorem decode26_pos (L : List Char) (h0 : L ≠ [])
    (h : ∀ c ∈ L, isAsciiAlpha c = true) : 1 ≤ decode26 L := by
  cases L with
  | nil => exact absurd rfl h0
  | cons c cs =>
    obtain ⟨hu1, _, _⟩ := pyToUpper_spec c (h c (List.mem_cons_self c cs))
    unfold decode26
    rw [List.foldl_cons]
    exact le_trans (by omega) (decode26_foldl_mono cs (0 * 26 + ((pyToUpper c).toNat - 64)))

theorem roundtrip26 :
    ∀ L : List Char, (∀ c ∈ L, isAsciiAlpha c = true) →
      encode26 (decode26 L) = L.map pyToUpper := by
  intro L
  induction L using List.reverseRecOn with
  | nil => intro _; rfl
  | append_singleton L c ih =>
    intro h
    have hc := h c (by simp)
    have hL : ∀ x ∈ L, isAsciiAlpha x = true := fun x hx => h x (by simp [hx])
    have hdec : decode26 (L ++ [c]) =
        decode26 L * 26 + ((pyToUpper c).toNat - 64) := by
      unfold decode26
      rw [List.foldl_append]
      rfl
    obtain ⟨hu1, hu2, hu3⟩ := pyToUpper_spec c hc
    rw [hdec, encode26_step _ _ (by omega) (by omega), ih hL, List.map_append,
      show 64 + ((pyToUpper c).toNat - 64) = (pyToUpper c).toNat by omega, hu3]
    rfl

theorem natToDigitsAux_zero (f : Nat) : natToDigitsAux f 0 = [] := by
  cases f <;> rfl

theorem natToDigitsAux_congr :
    ∀ (f1 f2 m : Nat), m ≤ f1 → m ≤ f2 → natToDigitsAux f1 m = natToDigitsAux f2 m := by
  intro f1
  induction f1 with
  | zero =>
    intro f2 m h1 h2
    have hm : m = 0 := by omega
    subst hm
    rw [natToDigitsAux_zero, natToDigitsAux_zero]
  | succ g ih =>
    intro f2 m h1 h2
    cases m with
    | zero => rw [natToDigitsAux_zero, natToDigitsAux_zero]
    | succ n =>
      cases f2 with
      | zero => omega
      | succ g2 =>
        have e1 : natToDigitsAux (g + 1) (n + 1) =
            natToDigitsAux g ((n + 1) / 10) ++ [Char.ofNat (48 + (n + 1) % 10)] := rfl
        have e2 : natToDigitsAux (g2 + 1) (n + 1) =
            natToDigitsAux g2 ((n + 1) / 10) ++ [Char.ofNat (48 + (n + 1) % 10)] := rfl
        have hd : (n + 1) / 10 ≤ n := by
          have := Nat.div_lt_self (show 0 < n + 1 by omega) (show 1 < 10 by omega)
          omega
        rw [e1, e2, ih g2 ((n + 1) / 10) (by omega) (by omega)]

theorem natToDigits_step (a v : Nat) (ha : 1 ≤ a) (hv : v ≤ 9) :
    natToDigits (a * 10 + v) = natToDigits a ++ [Char.ofNat (48 + v)] := by
  have h2a : a * 2 ≤ a * 10 := Nat.mul_le_mul_left a (by omega)
  have hm : a * 10 + v = (a * 10 + v - 1) + 1 := by omega
  have hdiv : (a * 10 + v) / 10 = a := by
    rw [show a * 10 + v = 10 * a + v by ring,
      Nat.mul_add_div (by omega), Nat.div_eq_of_lt (by omega)]
    omega
  have hmod : (a * 10 + v) % 10 = v := by
    rw [show a * 10 + v = 10 * a + v by ring,
      Nat.mul_add_mod, Nat.mod_eq_of_lt (by omega)]
  have e1 : natToDigits (a * 10 + v) =
      natToDigitsAux (a * 10 + v - 1) ((a * 10 + v - 1 + 1) / 10) ++
        [Char.ofNat (48 + (a * 10 + v - 1 + 1) % 10)] := by
    rw [show natToDigits (a * 10 + v) =
        if a * 10 + v = 0 then ['0'] else natToDigitsAux (a * 10 + v) (a * 10 + v) from rfl,
      if_neg (by omega)]
    conv_lhs => rw [hm]
    rfl
  rw [e1, show a * 10 + v - 1 + 1 = a * 10 + v by omega, hdiv, hmod,
    natToDigitsAux_congr _ a a (by omega) le_rfl,
    show natToDigits a = natToDigitsAux a a from by
      rw [show natToDigits a = if a = 0 then ['0'] else natToDigitsAux a a from rfl,
        if_neg (by omega)]]

theorem natToDigits_single (v : Nat) (h1 : 1 ≤ v) (h2 : v ≤ 9) :
    natToDigits v = [Char.ofNat (48 + v)] := by
  have hm : v = (v - 1) + 1 := by omega
  rw [show natToDigits v = if v = 0 then ['0'] else natToDigitsAux v v from rfl,
    if_neg (by omega)]
  conv_lhs => rw [hm]
  have e1 : natToDigitsAux ((v - 1) + 1) ((v - 1) + 1) =
      natToDigitsAux (v - 1) (((v - 1) + 1) / 10) ++
        [Char.ofNat (48 + ((v - 1) + 1) % 10)] := rfl
  rw [e1, show (v - 1) + 1 = v by omega, Nat.div_eq_of_lt (by omega),
    Nat.mod_eq_of_lt (by omega), natToDigitsAux_zero]
  rfl

theorem digits_foldl_mono :
    ∀ (L : List Char) (acc : Nat),
      acc ≤ L.foldl (fun a c => a * 10 + (c.toNat - 48)) acc := by
  intro L
  induction L with
  | nil => intro acc; exact le_rfl
  | cons c cs ih =>
    intro acc
    rw [List.foldl_cons]
    refine le_trans ?_ (ih (acc * 10 + (c.toNat - 48)))
    have := Nat.le_mul_of_pos_right acc (show 0 < 10 by omega)
    omega

theorem digitsToNat_pos (d : List Char) (hd : ∀ c ∈ d, isAsciiDigit c = true)
    (hz : d.head? ≠ some '0') (h0 : d ≠ []) : 1 ≤ digitsToNat d := by
  cases d with
  | nil => exact absurd rfl h0
  | cons c cs =>
    have hc : isAsciiDigit c = true := hd c (List.mem_cons_self c cs)
    have hcz : c ≠ '0' := fun he => hz (by rw [he]; rfl)
    have h48 := digit_toNat_eq_48 c hc hcz
    simp only [isAsciiDigit, Bool.and_eq_true, decide_eq_true_eq] at hc
    unfold digitsToNat
    rw [List.foldl_cons]
    exact le_trans (by omega) (digits_foldl_mono cs (0 * 10 + (c.toNat - 48)))

theorem digits_roundtrip :
    ∀ d : List Char, (∀ c ∈ d, isAsciiDigit c = true) → d.head? ≠ some '0' →
      d ≠ [] → natToDigits (digitsToNat d) = d := by
  intro d
  induction d using List.reverseRecOn with
  | nil => intro _ _ h0; exact absurd rfl h0
  | append_singleton L c ih =>
    intro hd hz _
    have hc : isAsciiDigit c = true := hd c (by simp)
    have hc48 : 48 ≤ c.toNat ∧ c.toNat ≤ 57 := by
      simpa [isAsciiDigit] using hc
    have hdec : digitsToNat (L ++ [c]) = digitsToNat L * 10 + (c.toNat - 48) := by
      unfold digitsToNat
      rw [List.foldl_append]
      rfl
    have hchar : Char.ofNat (48 + (c.toNat - 48)) = c := by
      rw [show 48 + (c.toNat - 48) = c.toNat by omega, char_ofNat_toNat]
    cases L with
    | nil =>
      have hcz : c ≠ '0' := fun he => hz (by rw [he]; rfl)
      have h48 := digit_toNat_eq_48 c hc hcz
      rw [hdec]
      simp only [digitsToNat, List.foldl_nil]
      rw [show (0 : Nat) * 10 + (c.toNat - 48) = c.toNat - 48 by omega,
        natToDigits_single _ (by omega) (by omega), hchar]
      simp
    | cons l0 ls =>
      have hz' : (l0 :: ls).head? ≠ some '0' := hz
      have hL : ∀ x ∈ l0 :: ls, isAsciiDigit x = true :=
        fun x hx => hd x (List.mem_append_left _ hx)
      have ha : 1 ≤ digitsToNat (l0 :: ls) := digitsToNat_pos _ hL hz' (by simp)
      rw [hdec, natToDigits_step _ _ ha (by omega), ih hL hz' (by simp), hchar]

theorem matchCellRef_of_shape (letters digits : List Char)
    (h1 : letters ≠ []) (h2 : ∀ c ∈ letters, isAsciiAlpha c = true)
    (h3 : digits ≠ []) (h4 : ∀ c ∈ digits, isAsciiDigit c = true) :
    matchCellRef (letters ++ digits) = some (letters, digits) := by
  have htwl : letters.takeWhile isAsciiAlpha = letters :=
    List.takeWhile_eq_self_iff.mpr h2
  have htw : (letters ++ digits).takeWhile isAsciiAlpha = letters := by
    rw [List.takeWhile_append, htwl, if_pos rfl]
    cases digits with
    | nil => exact absurd rfl h3
    | cons d0 ds =>
      rw [List.takeWhile_cons,
        if_neg (by rw [digit_not_alpha d0 (h4 d0 (List.mem_cons_self d0 ds))]; simp)]
      simp
  have hdwl : letters.dropWhile isAsciiAlpha = [] :=
    List.dropWhile_eq_nil_iff.mpr h2
  have hdw : (letters ++ digits).dropWhile isAsciiAlpha = digits := by
    rw [List.dropWhile_append, hdwl]
    simp only [List.isEmpty_nil, if_true]
    cases digits with
    | nil => rfl
    | cons d0 ds =>
      rw [List.dropWhile_cons,
        if_neg (by rw [digit_not_alpha d0 (h4 d0 (List.mem_cons_self d0 ds))]; simp)]
  have htd : digits.takeWhile isAsciiDigit = digits :=
    List.takeWhile_eq_self_iff.mpr h4
  have hdd : digits.dropWhile isAsciiDigit = [] :=
    List.dropWhile_eq_nil_iff.mpr h4
  have hle : letters.isEmpty = false := by
    cases letters with
    | nil => exact absurd rfl h1
    | cons a l => rfl
  have hde : digits.isEmpty = false := by
    cases digits with
    | nil => exact absurd rfl h3
    | cons a l => rfl
  simp only [matchCellRef, htw, hdw, htd, hdd, hle, hde, List.isEmpty_nil,
    Bool.not_true, Bool.or_false, Bool.false_or, if_false]
  rfl

theorem matchCellRef_inv (s l d : List Char) (h : matchCellRef s = some (l, d)) :
    l ≠ [] ∧ d ≠ [] ∧ (∀ c ∈ l, isAsciiAlpha c = true) ∧
    (∀ c ∈ d, isAsciiDigit c = true) ∧ s = l ++ d := by
  simp only [matchCellRef] at h
  split at h
  · exact absurd h (by simp)
  · rename_i hcond
    simp only [Bool.or_eq_true, Bool.not_eq_true', not_or,
      Bool.not_eq_true] at hcond
    obtain ⟨⟨he1, he2⟩, he3⟩ := hcond
    obtain ⟨hl, hd⟩ := Prod.mk.injEq _ _ _ _ ▸ Option.some.inj h
    subst hl
    subst hd
    have hle : s.takeWhile isAsciiAlpha ≠ [] := by
      intro hc
      rw [hc] at he1
      simp at he1
    have hde : (s.dropWhile isAsciiAlpha).takeWhile isAsciiDigit ≠ [] := by
      intro hc
      rw [hc] at he2
      simp at he2
    have hrest : (s.dropWhile isAsciiAlpha).dropWhile isAsciiDigit = [] := by
      cases hdw : (s.dropWhile isAsciiAlpha).dropWhile isAsciiDigit with
      | nil => rfl
      | cons a t => rw [hdw] at he3; simp at he3
    refine ⟨hle, hde, ?_, ?_, ?_⟩
    · intro c hc
      exact List.mem_takeWhile_imp hc
    · intro c hc
      exact List.mem_takeWhile_imp hc
    · have hs1 : s.takeWhile isAsciiAlpha ++ s.dropWhile isAsciiAlpha = s :=
        List.takeWhile_append_dropWhile _ _
      have hs2 : (s.dropWhile isAsciiAlpha).takeWhile isAsciiDigit ++
          (s.dropWhile isAsciiAlpha).dropWhile isAsciiDigit = s.dropWhile isAsciiAlpha :=
        List.takeWhile_append_dropWhile _ _
      rw [hrest, List.append_nil] at hs2
      rw [hs2, hs1]

theorem dropTrailing_of_last_neg (p : Char → Bool) (y : List Char) (a : Char)
    (ha : p a = false) : dropTrailing p (y ++ [a]) = y ++ [a] := by
  unfold dropTrailing
  rw [List.reverse_append]
  have h1 : ([a] : List Char).reverse ++ y.reverse = a :: y.reverse := rfl
  rw [h1, List.dropWhile_cons, if_neg (by simp [ha])]
  simp

theorem pyStrip_shape (letters digits : List Char)
    (h1 : letters ≠ []) (h3 : digits ≠ [])
    (h2 : ∀ c ∈ letters, isAsciiAlpha c = true)
    (h4 : ∀ c ∈ digits, isAsciiDigit c = true) :
    pyStrip (letters ++ digits) = letters ++ digits := by
  have hfront : (letters ++ digits).dropWhile pyIsSpace = letters ++ digits := by
    cases letters with
    | nil => exact absurd rfl h1
    | cons c0 lt =>
      rw [List.cons_append, List.dropWhile_cons,
        if_neg (by rw [alpha_not_space c0 (h2 c0 (List.mem_cons_self c0 lt))]; simp)]
  have hback : dropTrailing pyIsSpace (letters ++ digits) = letters ++ digits := by
    rcases List.eq_nil_or_concat digits with hnil | ⟨ds, dn, hds⟩
    · exact absurd hnil h3
    · subst hds
      have hmem : dn ∈ ds.concat dn := by simp
      rw [show letters ++ ds.concat dn = (letters ++ ds) ++ [dn] by
        simp [List.concat_eq_append]]
      rw [dropTrailing_of_last_neg _ _ _ (digit_not_space dn (h4 dn hmem))]
  unfold pyStrip
  rw [hfront, hback]

theorem colLoop_ok :
    ∀ (L : List Char) (acc : Nat), (∀ c ∈ L, isAsciiAlpha c = true) →
      colLoop acc L =
        .ok (L.foldl (fun a c => a * 26 + ((pyToUpper c).toNat - 64)) acc) := by
  intro L
  induction L with
  | nil => intro acc _; rfl
  | cons c cs ih =>
    intro acc h
    have hc := h c (List.mem_cons_self c cs)
    obtain ⟨hu1, hu2, _⟩ := pyToUpper_spec c hc
    have hua : isAsciiAlpha (pyToUpper c) = true := by
      simp only [isAsciiAlpha, Bool.or_eq_true, Bool.and_eq_true,
        decide_eq_true_eq]
      omega
    simp only [colLoop, hua, if_true, List.foldl_cons]
    exact ih _ (fun x hx => h x (List.mem_cons_of_mem _ hx))

theorem decode26_eq_foldl (letters : List Char) :
    letters.foldl (fun a c => a * 26 + ((pyToUpper c).toNat - 64)) 0 =
      decode26 letters := rfl

theorem cell_to_indices_shape (letters digits : List Char)
    (h1 : letters ≠ []) (h2 : ∀ c ∈ letters, isAsciiAlpha c = true)
    (h3 : digits ≠ []) (h4 : ∀ c ∈ digits, isAsciiDigit c = true)
    (h5 : 1 ≤ digitsToNat digits) :
    cell_to_indices (letters ++ digits) =
      .ok ((digitsToNat digits : Int) - 1, (decode26 letters : Int) - 1) := by
  have hd : 1 ≤ decode26 letters := decode26_pos letters h1 h2
  simp only [cell_to_indices, pyStrip_shape letters digits h1 h3 h2 h4,
    matchCellRef_of_shape letters digits h1 h2 h3 h4, colLoop_ok letters 0 h2,
    decode26_eq_foldl]
  rw [if_neg (show ¬((digitsToNat digits : Int) - 1 < 0) by omega),
    if_neg (show ¬((decode26 letters : Int) - 1 < 0) by omega)]

/-- Claim C2 (amended: the digit part must carry no leading zero, rather than
merely being different from `"0"`): for every letters+digits reference whose
digit part has no leading zero, `cell_to_indices` returns the zero-based pair
(row, col) with the column decoded as bijective base-26 minus 1 and the row
as the base-10 number minus 1, and re-encoding that pair yields the same
upper-cased string; in particular `A1 → (0,0)`, `B5 → (4,1)`,
`BC12 → (11,54)`. -/
theorem cell_to_indices_roundtrip (letters digits : List Char)
    (h1 : letters ≠ []) (h2 : ∀ c ∈ letters, isAsciiAlpha c = true)
    (h3 : digits ≠ []) (h4 : ∀ c ∈ digits, isAsciiDigit c = true)
    (h5 : digits.head? ≠ some '0') :
    cell_to_indices (letters ++ digits) =
      .ok ((digitsToNat digits : Int) - 1, (decode26 letters : Int) - 1) ∧
    encodeCell (digitsToNat digits - 1) (decode26 letters - 1) =
      (letters ++ digits).map pyToUpper ∧
    cell_to_indices ("A1".toList) = .ok (0, 0) ∧
    cell_to_indices ("B5".toList) = .ok (4, 1) ∧
    cell_to_indices ("BC12".toList) = .ok (11, 54) := by
  have hpos : 1 ≤ digitsToNat digits := digitsToNat_pos digits h4 h5 h3
  have hdpos : 1 ≤ decode26 letters := decode26_pos letters h1 h2
  refine ⟨cell_to_indices_shape letters digits h1 h2 h3 h4 hpos, ?_,
    rfl, rfl, rfl⟩
  have hdig : digits.map pyToUpper = digits := by
    have h : ∀ c ∈ digits, pyToUpper c = id c :=
      fun c hc => digit_toUpper_self c (h4 c hc)
    rw [List.map_congr_left h, List.map_id]
  unfold encodeCell
  rw [show digitsToNat digits - 1 + 1 = digitsToNat digits by omega,
    show decode26 letters - 1 + 1 = decode26 letters by omega,
    roundtrip26 letters h2, digits_roundtrip digits h4 h5 h3, List.map_append,
    hdig]

/-- Claim C2 witness: the round trip at the concrete reference `BC12`. -/
theorem cell_to_indices_roundtrip_witness :
    cell_to_indices ("BC".toList ++ "12".toList) =
      .ok ((digitsToNat ("12".toList) : Int) - 1, (decode26 ("BC".toList) : Int) - 1) ∧
    encodeCell (digitsToNat ("12".toList) - 1) (decode26 ("BC".toList) - 1) =
      ("BC".toList ++ "12".toList).map pyToUpper :=
  ⟨(cell_to_indices_roundtrip ("BC".toList) ("12".toList) (by decide) (by decide)
      (by decide) (by decide) (by decide)).1,
   (cell_to_indices_roundtrip ("BC".toList) ("12".toList) (by decide) (by decide)
      (by decide) (by decide) (by decide)).2.1⟩

/-- Claim C2 counterexample: `A01` has the letters+digits shape and its digit
part `01` is not the string `0`, so the claim as stated applies to it; the
resolver indeed returns (0, 0), but re-encoding (0, 0) gives `A1`, not the
upper-cased input `A01` — the round trip fails on digit parts with leading
zeros. -/
theorem cell_to_indices_roundtrip_counterexample :
    ("A01".toList = "A".toList ++ "01".toList) ∧
    ("01".toList ≠ "0".toList) ∧
    cell_to_indices ("A01".toList) = .ok (0, 0) ∧
    encodeCell 0 0 = "A1".toList ∧
    ("A01".toList).map pyToUpper = "A01".toList ∧
    "A1".toList ≠ "A01".toList := by
  refine ⟨by decide, by decide, rfl, by decide, by decide, by decide⟩

/-- Claim C8 (amended: the failure condition on the digit part is "decodes to
zero", i.e. consists only of zeros, rather than "is the string `0`"):
`cell_to_indices` fails with `InvalidReference` exactly when the trimmed
input is not letters+digits or the digit part decodes to zero, and on every
other input of that shape it succeeds with non-negative indices. -/
theorem cell_to_indices_error_iff (s : List Char) :
    (cell_to_indices s = .error .invalidReference ↔
      matchCellRef (pyStrip s) = none ∨
        ∃ l d, matchCellRef (pyStrip s) = some (l, d) ∧ digitsToNat d = 0) ∧
    (∀ l d, matchCellRef (pyStrip s) = some (l, d) → 1 ≤ digitsToNat d →
      cell_to_indices s = .ok ((digitsToNat d : Int) - 1, (decode26 l : Int) - 1) ∧
        0 ≤ (digitsToNat d : Int) - 1 ∧ 0 ≤ (decode26 l : Int) - 1) := by
  cases hm : matchCellRef (pyStrip s) with
  | none =>
    constructor
    · constructor
      · intro _
        exact Or.inl rfl
      · intro _
        simp only [cell_to_indices, hm]
    · intro l d hld
      exact absurd hld (by simp)
  | some p =>
    obtain ⟨l, d⟩ := p
    obtain ⟨hl0, hd0, hla, hda, _⟩ := matchCellRef_inv (pyStrip s) l d hm
    have hcl : colLoop 0 l = .ok (decode26 l) := colLoop_ok l 0 hla
    have hdpos : 1 ≤ decode26 l := decode26_pos l hl0 hla
    have hexpand : cell_to_indices s =
        if (digitsToNat d : Int) - 1 < 0 then .error .invalidReference
        else .ok ((digitsToNat d : Int) - 1, (decode26 l : Int) - 1) := by
      simp only [cell_to_indices, hm, hcl, decode26_eq_foldl]
      by_cases hz : (digitsToNat d : Int) - 1 < 0
      · rw [if_pos hz, if_pos hz]
      · rw [if_neg hz, if_neg hz,
          if_neg (show ¬((decode26 l : Int) - 1 < 0) by omega)]
    constructor
    · constructor
      · intro herr
        by_cases hz : digitsToNat d = 0
        · exact Or.inr ⟨l, d, rfl, hz⟩
        · rw [hexpand, if_neg (by omega)] at herr
          exact absurd herr (by simp)
      · intro hcase
        rcases hcase with hnone | ⟨l2, d2, hsome, hz⟩
        · exact absurd hnone (by simp)
        · have hpq := Option.some.inj hsome
          rw [Prod.mk.injEq] at hpq
          obtain ⟨he1, he2⟩ := hpq
          subst he2
          rw [hexpand, if_pos (show (digitsToNat d : Int) - 1 < 0 by omega)]
    · intro l2 d2 hsome hpos
      have hpq := Option.some.inj hsome
      rw [Prod.mk.injEq] at hpq
      obtain ⟨he1, he2⟩ := hpq
      subst he1
      subst he2
      rw [hexpand, if_neg (show ¬((digitsToNat d : Int) - 1 < 0) by omega)]
      exact ⟨rfl, by omega, by omega⟩

/-- Claim C8 witness: the success half at the concrete reference `B5`. -/
theorem cell_to_indices_error_iff_witness :
    cell_to_indices ("B5".toList) =
      .ok ((digitsToNat ("5".toList) : Int) - 1, (decode26 ("B".toList) : Int) - 1) :=
  ((cell_to_indices_error_iff ("B5".toList)).2 ("B".toList) ("5".toList)
    (by decide) (by decide)).1

/-- Claim C8 counterexample: `A00` is letters+digits and its digit part `00`
is not the string `0`, yet `cell_to_indices` fails with `InvalidReference`
(the decoded row index `int("00") - 1` is negative), contradicting the
claim's "exactly when". -/
theorem cell_to_indices_error_iff_counterexample :
    matchCellRef (pyStrip ("A00".toList)) = some ("A".toList, "00".toList) ∧
    "00".toList ≠ "0".toList ∧
    cell_to_indices ("A00".toList) = .error .invalidReference := by
  refine ⟨by decide, by decide, rfl⟩

/-- Claim C4: `prepare_table_slice` fails with `InvalidRange` when a provided
end cell lies above or left of the start (and this check precedes the bounds
check, firing even for an out-of-bounds start); it fails with `OutOfBounds`
when the start row/column is at or beyond the populated shape; an omitted end
cell behaves exactly like an explicit end cell denoting the last row and
column; and a provided end beyond the populated bounds is silently clamped
to the last row/column — the slice still succeeds. -/
theorem prepare_table_slice_range_errors :
    (∀ (df : List (List Cell)) (ncols : Nat) (s e : List Char) (sr sc er ec : Int),
      cell_to_indices s = .ok (sr, sc) → cell_to_indices e = .ok (er, ec) →
      (er < sr ∨ ec < sc) →
      prepare_table_slice df ncols s (some e) = .error .invalidRange) ∧
    (∀ (df : List (List Cell)) (ncols : Nat) (s : List Char) (sr sc : Int),
      cell_to_indices s = .ok (sr, sc) →
      (sr ≥ (df.length : Int) ∨ sc ≥ (ncols : Int)) →
      prepare_table_slice df ncols s none = .error .outOfBounds) ∧
    (∀ (df : List (List Cell)) (ncols : Nat) (s e : List Char) (sr sc er ec : Int),
      cell_to_indices s = .ok (sr, sc) → cell_to_indices e = .ok (er, ec) →
      sr ≤ er → sc ≤ ec →
      (sr ≥ (df.length : Int) ∨ sc ≥ (ncols : Int)) →
      prepare_table_slice df ncols s (some e) = .error .outOfBounds) ∧
    (∀ (df : List (List Cell)) (ncols : Nat) (s e : List Char) (sr sc : Int),
      cell_to_indices s = .ok (sr, sc) →
      sr < (df.length : Int) → sc < (ncols : Int) →
      cell_to_indices e = .ok ((df.length : Int) - 1, (ncols : Int) - 1) →
      prepare_table_slice df ncols s none = prepare_table_slice df ncols s (some e)) ∧
    (∀ (df : List (List Cell)) (ncols : Nat) (s e e2 : List Char) (sr sc er ec : Int),
      cell_to_indices s = .ok (sr, sc) →
      sr < (df.length : Int) → sc < (ncols : Int) →
      cell_to_indices e = .ok (er, ec) → sr ≤ er → sc ≤ ec →
      cell_to_indices e2 = .ok (min er ((df.length : Int) - 1), min ec ((ncols : Int) - 1)) →
      prepare_table_slice df ncols s (some e) = prepare_table_slice df ncols s (some e2) ∧
      ∃ f, prepare_table_slice df ncols s (some e) = .ok f) := by
  refine ⟨?_, ?_, ?_, ?_, ?_⟩
  · intro df ncols s e sr sc er ec hs he hlt
    simp only [prepare_table_slice, hs, resolveEnd, he, if_pos hlt]
  · intro df ncols s sr sc hs hoob
    simp only [prepare_table_slice, hs, resolveEnd, if_pos hoob]
  · intro df ncols s e sr sc er ec hs he hge1 hge2 hoob
    simp only [prepare_table_slice, hs, resolveEnd, he,
      if_neg (show ¬(er < sr ∨ ec < sc) by omega), if_pos hoob]
  · intro df ncols s e sr sc hs hr hc he
    simp only [prepare_table_slice, hs, resolveEnd, he,
      if_neg (show ¬((df.length : Int) - 1 < sr ∨ (ncols : Int) - 1 < sc) by omega)]
  · intro df ncols s e e2 sr sc er ec hs hr hc he hge1 hge2 he2
    have hm1 : min (min er ((df.length : Int) - 1)) ((df.length : Int) - 1) =
        min er ((df.length : Int) - 1) := by omega
    have hm2 : min (min ec ((ncols : Int) - 1)) ((ncols : Int) - 1) =
        min ec ((ncols : Int) - 1) := by omega
    have hnoob : ¬(sr ≥ (df.length : Int) ∨ sc ≥ (ncols : Int)) := by omega
    constructor
    · simp only [prepare_table_slice, hs, resolveEnd, he, he2,
        if_neg (show ¬(er < sr ∨ ec < sc) by omega),
        if_neg (show ¬(min er ((df.length : Int) - 1) < sr ∨
          min ec ((ncols : Int) - 1) < sc) by omega),
        if_neg hnoob, hm1, hm2]
    · refine ⟨buildFrame (subRect df sr.toNat (min er ((df.length : Int) - 1)).toNat
        sc.toNat (min ec ((ncols : Int) - 1)).toNat), ?_⟩
      simp only [prepare_table_slice, hs, resolveEnd, he,
        if_neg (show ¬(er < sr ∨ ec < sc) by omega), if_neg hnoob]

/-- Claim C4 witness: the four behaviours at concrete tables and ranges. -/
theorem prepare_table_slice_range_errors_witness :
    prepare_table_slice ([] : List (List Cell)) 0 ("B2".toList) (some ("A1".toList)) =
      .error .invalidRange ∧
    prepare_table_slice ([] : List (List Cell)) 0 ("A1".toList) none =
      .error .outOfBounds ∧
    prepare_table_slice [[(none : Cell)]] 1 ("B1".toList) (some ("C1".toList)) =
      .error .outOfBounds ∧
    prepare_table_slice [[(none : Cell), none], [none, none]] 2 ("A1".toList) none =
      prepare_table_slice [[(none : Cell), none], [none, none]] 2 ("A1".toList)
        (some ("B2".toList)) ∧
    prepare_table_slice [[(none : Cell), none], [none, none]] 2 ("A1".toList)
        (some ("D9".toList)) =
      prepare_table_slice [[(none : Cell), none], [none, none]] 2 ("A1".toList)
        (some ("B2".toList)) ∧
    (∃ f, prepare_table_slice [[(none : Cell), none], [none, none]] 2 ("A1".toList)
        (some ("D9".toList)) = .ok f) := by
  refine ⟨?_, ?_, ?_, ?_, ?_, ?_⟩
  · exact prepare_table_slice_range_errors.1 [] 0 ("B2".toList) ("A1".toList)
      1 1 0 0 rfl rfl (by decide)
  · exact prepare_table_slice_range_errors.2.1 [] 0 ("A1".toList) 0 0 rfl (by decide)
  · exact prepare_table_slice_range_errors.2.2.1 [[(none : Cell)]] 1
      ("B1".toList) ("C1".toList) 0 1 0 2 rfl rfl (by decide) (by decide) (by decide)
  · exact prepare_table_slice_range_errors.2.2.2.1
      [[(none : Cell), none], [none, none]] 2 ("A1".toList) ("B2".toList)
      0 0 rfl (by decide) (by decide) rfl
  · exact (prepare_table_slice_range_errors.2.2.2.2
      [[(none : Cell), none], [none, none]] 2 ("A1".toList) ("D9".toList)
      ("B2".toList) 0 0 8 3 rfl (by decide) (by decide) rfl (by decide) (by decide)
      rfl).1
  · exact (prepare_table_slice_range_errors.2.2.2.2
      [[(none : Cell), none], [none, none]] 2 ("A1".toList) ("D9".toList)
      ("B2".toList) 0 0 8 3 rfl (by decide) (by decide) rfl (by decide) (by decide)
      rfl).2

/-- The positional mask `dupMask` applied through `maskFilter` keeps exactly
the positions whose name does not occur among the names before them (or in
`seen`). -/
theorem dupMask_maskFilter {β : Type} (d : β) :
    ∀ (names : List (List Char)) (seen : List (List Char)) (l : List β),
      l.length = names.length →
      maskFilter (dupMask seen names) l =
        ((List.range names.length).filter
          (fun j => !(seen.contains (names.getD j []) ||
            (names.take j).contains (names.getD j [])))).map
          (fun j => l.getD j d) := by
  intro names
  induction names with
  | nil =>
    intro seen l h
    have hl : l = [] := List.length_eq_zero.mp h
    subst hl
    rfl
  | cons n ns ih =>
    intro seen l h
    cases l with
    | nil => simp at h
    | cons a l2 =>
      have hlen : l2.length = ns.length := by simpa using h
      have hstep : maskFilter (dupMask seen (n :: ns)) (a :: l2) =
          if !seen.contains n then a :: maskFilter (dupMask (n :: seen) ns) l2
          else maskFilter (dupMask (n :: seen) ns) l2 := rfl
      rw [hstep]
      simp only [List.length_cons]
      rw [List.range_succ_eq_map, List.filter_cons, List.filter_map,
        ih (n :: seen) l2 hlen]
      have hp0 : (!(seen.contains ((n :: ns).getD 0 []) ||
          ((n :: ns).take 0).contains ((n :: ns).getD 0 []))) = !seen.contains n := by
        simp
      rw [hp0]
      have hfil : (List.range ns.length).filter
            ((fun j => !(seen.contains ((n :: ns).getD j []) ||
              ((n :: ns).take j).contains ((n :: ns).getD j []))) ∘ Nat.succ) =
          (List.range ns.length).filter
            (fun j => !((n :: seen).contains (ns.getD j []) ||
              (ns.take j).contains (ns.getD j []))) := by
        apply List.filter_congr
        intro j hj
        simp only [Function.comp, List.getD_cons_succ, List.take_succ_cons,
          List.contains_cons]
        cases seen.contains (ns.getD j []) <;> cases ns.getD j [] == n <;>
          cases (ns.take j).contains (ns.getD j []) <;> rfl
      rw [hfil]
      cases hb : seen.contains n with
      | true =>
        rw [if_neg (by decide), if_neg (by decide), List.map_map]
        apply List.map_congr_left
        intro j hj
        simp [Function.comp]
      | false =>
        rw [if_pos (by decide), if_pos (by decide), List.map_cons, List.map_map]
        congr 1

theorem dupMask_maskFilter_nil {β : Type} (d : β) (names : List (List Char))
    (l : List β) (h : l.length = names.length) :
    maskFilter (dupMask [] names) l =
      ((List.range names.length).filter
        (fun j => !((names.take j).contains (names.getD j [])))).map
        (fun j => l.getD j d) := by
  rw [dupMask_maskFilter d names [] l h]
  congr 1

/-- `buildFrame` on a rectangular subset computes exactly the header
promotion and duplicate-column drop the specification describes. -/
theorem buildFrame_spec (sub : List (List Cell)) (w : Nat)
    (hw : ∀ r ∈ sub, r.length = w)
    (hwn : ∀ r ∈ sub, (headerNames (sub.headD [])).length = r.length) :
    buildFrame sub =
      if sub.length ≤ 1 then ⟨[], []⟩
      else
        ⟨((List.range (headerNames (sub.headD [])).length).filter
            (fun j => !(((headerNames (sub.headD [])).take j).contains
              ((headerNames (sub.headD [])).getD j [])))).map
          (fun j => (headerNames (sub.headD [])).getD j []),
         (sub.drop 1).map (fun r =>
          ((List.range (headerNames (sub.headD [])).length).filter
            (fun j => !(((headerNames (sub.headD [])).take j).contains
              ((headerNames (sub.headD [])).getD j [])))).map
            (fun j => r.getD j none))⟩ := by
  cases sub with
  | nil => rfl
  | cons header rest =>
    cases rest with
    | nil => rfl
    | cons r0 rs =>
      rw [if_neg (by simp)]
      have hhead : ((header :: r0 :: rs).headD ([] : List Cell)) = header := rfl
      have hnlen : (headerNames header).length = header.length := by
        simp [headerNames]
      show Frame.mk (maskFilter (dupMask [] (headerNames header)) (headerNames header))
          ((r0 :: rs).map (fun r => maskFilter (dupMask [] (headerNames header)) r)) = _
      rw [hhead]
      congr 1
      · exact dupMask_maskFilter_nil [] (headerNames header) (headerNames header) rfl
      · show ((r0 :: rs).map (fun r => maskFilter (dupMask [] (headerNames header)) r)) = _
        apply List.map_congr_left
        intro r hr
        exact dupMask_maskFilter_nil none (headerNames header) r
          (hwn r (List.mem_cons_of_mem _ hr)).symm

theorem cell_to_indices_ok_nonneg (s : List Char) (r c : Int)
    (h : cell_to_indices s = .ok (r, c)) : 0 ≤ r ∧ 0 ≤ c := by
  unfold cell_to_indices at h
  split at h
  · exact absurd h (by simp)
  · rename_i col_part row_part heq
    dsimp only at h
    by_cases hz : (digitsToNat row_part : Int) - 1 < 0
    · rw [if_pos hz] at h
      exact absurd h (by simp)
    · rw [if_neg hz] at h
      cases hcl : colLoop 0 col_part with
      | error e =>
        rw [hcl] at h
        exact absurd h (by simp)
      | ok v =>
        rw [hcl] at h
        dsimp only at h
        by_cases hc2 : (v : Int) - 1 < 0
        · rw [if_pos hc2] at h
          exact absurd h (by simp)
        · rw [if_neg hc2] at h
          have hinj := Except.ok.inj h
          rw [Prod.mk.injEq] at hinj
          obtain ⟨h1, h2⟩ := hinj
          subst h1
          subst h2
          constructor <;> omega

theorem headerNames_headD_length (sub : List (List Cell)) (w : Nat)
    (hw : ∀ r ∈ sub, r.length = w) :
    ∀ r ∈ sub, (headerNames (sub.headD [])).length = r.length := by
  intro r hr
  cases sub with
  | nil => simp at hr
  | cons h0 rest =>
    have h1 : (headerNames h0).length = h0.length := by simp [headerNames]
    show (headerNames h0).length = r.length
    rw [h1, hw h0 (List.mem_cons_self _ _), hw r hr]

/-- Claim C3: for every rectangular table and every valid, in-bounds range,
`prepare_table_slice` returns the empty frame when the resolved
sub-rectangle has 0 or 1 rows, and otherwise promotes row 0 of the
sub-rectangle to the header (trimmed text, with empty text replaced by
`Column {1-based-position}`), drops every later column whose resolved name
equals an earlier column's name (first occurrence wins, no renaming), and
keeps rows 1.. as the data rows in original order — exactly the frame
`sliceSpec` describes. -/
theorem prepare_table_slice_content (df : List (List Cell)) (ncols : Nat)
    (s : List Char) (end_cell : Option (List Char)) (sr sc er ec : Int)
    (hrect : ∀ r ∈ df, r.length = ncols)
    (hs : cell_to_indices s = .ok (sr, sc))
    (hsr : sr < (df.length : Int)) (hsc : sc < (ncols : Int))
    (hend : (end_cell = none ∧ er = (df.length : Int) - 1 ∧ ec = (ncols : Int) - 1) ∨
      (∃ e, end_cell = some e ∧ cell_to_indices e = .ok (er, ec) ∧
        sr ≤ er ∧ sc ≤ ec ∧ er < (df.length : Int) ∧ ec < (ncols : Int))) :
    prepare_table_slice df ncols s end_cell =
      .ok (sliceSpec df sr.toNat sc.toNat er.toNat ec.toNat) := by
  obtain ⟨hsr0, hsc0⟩ := cell_to_indices_ok_nonneg s sr sc hs
  have hfacts : sr ≤ er ∧ sc ≤ ec ∧ er ≤ (df.length : Int) - 1 ∧
      ec ≤ (ncols : Int) - 1 := by
    rcases hend with ⟨_, h1, h2⟩ | ⟨e, _, _, h3, h4, h5, h6⟩
    · refine ⟨by omega, by omega, by omega, by omega⟩
    · refine ⟨h3, h4, by omega, by omega⟩
  obtain ⟨her1, hec1, her2, hec2⟩ := hfacts
  have hred : prepare_table_slice df ncols s end_cell =
      .ok (buildFrame (subRect df sr.toNat er.toNat sc.toNat ec.toNat)) := by
    have hm1 : min er ((df.length : Int) - 1) = er := by omega
    have hm2 : min ec ((ncols : Int) - 1) = ec := by omega
    have hnoob : ¬(sr ≥ (df.length : Int) ∨ sc ≥ (ncols : Int)) := by omega
    rcases hend with ⟨hnone, h1, h2⟩ | ⟨e, hsome, he, _, _, _, _⟩
    · subst hnone
      subst h1
      subst h2
      simp only [prepare_table_slice, hs, resolveEnd, if_neg hnoob, min_self]
    · subst hsome
      simp only [prepare_table_slice, hs, resolveEnd, he,
        if_neg (show ¬(er < sr ∨ ec < sc) by omega), if_neg hnoob, hm1, hm2]
  rw [hred]
  have hw : ∀ r ∈ subRect df sr.toNat er.toNat sc.toNat ec.toNat,
      r.length = ec.toNat + 1 - sc.toNat := by
    intro r hr
    simp only [subRect, List.mem_map] at hr
    obtain ⟨r0, hr0, rfl⟩ := hr
    have hr0df : r0 ∈ df := List.mem_of_mem_drop (List.mem_of_mem_take hr0)
    have hrl := hrect r0 hr0df
    simp only [List.length_take, List.length_drop, hrl]
    omega
  rw [buildFrame_spec _ (ec.toNat + 1 - sc.toNat) hw
    (headerNames_headD_length _ _ hw)]
  rfl

/-- Claim C3 witness: a 3×2 table whose two header cells share the name `A`
(the later duplicate column is dropped), sliced from `A1` with the end
omitted, and a one-row sub-rectangle (start `A3`) yielding the empty
frame. -/
theorem prepare_table_slice_content_witness :
    prepare_table_slice
        [[some ['A'], some ['A']], [some ['x'], some ['y']], [none, some ['z']]] 2
        ("A1".toList) none =
      .ok (sliceSpec
        [[some ['A'], some ['A']], [some ['x'], some ['y']], [none, some ['z']]]
        0 0 2 1) ∧
    sliceSpec [[some ['A'], some ['A']], [some ['x'], some ['y']], [none, some ['z']]]
        0 0 2 1 = ⟨[['A']], [[some ['x']], [none]]⟩ ∧
    prepare_table_slice
        [[some ['A'], some ['A']], [some ['x'], some ['y']], [none, some ['z']]] 2
        ("A3".toList) none =
      .ok (sliceSpec
        [[some ['A'], some ['A']], [some ['x'], some ['y']], [none, some ['z']]]
        2 0 2 1) ∧
    sliceSpec [[some ['A'], some ['A']], [some ['x'], some ['y']], [none, some ['z']]]
        2 0 2 1 = ⟨[], []⟩ := by
  refine ⟨?_, by decide, ?_, by decide⟩
  · exact prepare_table_slice_content _ 2 ("A1".toList) none 0 0 2 1
      (by decide) rfl (by decide) (by decide)
      (Or.inl ⟨rfl, by decide, by decide⟩)
  · exact prepare_table_slice_content _ 2 ("A3".toList) none 2 0 2 1
      (by decide) rfl (by decide) (by decide)
      (Or.inl ⟨rfl, by decide, by decide⟩)

/-- The 1-based `enumerate`/skip-empty loop over a list of non-empty chunks
degenerates to a plain loop over chunk indices. -/
theorem enumFrom_flatMap_ne_nil {α β : Type} (g : Nat → List α → List β) :
    ∀ (chunks : List (List α)) (j : Nat), (∀ c ∈ chunks, c ≠ []) →
      (chunks.enumFrom j).flatMap
          (fun p => if p.2.isEmpty then [] else g p.1 p.2) =
        (List.range chunks.length).flatMap
          (fun i => g (j + i) (chunks.getD i [])) := by
  intro chunks
  induction chunks with
  | nil => intro j _; rfl
  | cons c cs ih =>
    intro j h
    have hc : c.isEmpty = false := by
      have hne := h c (List.mem_cons_self c cs)
      cases c with
      | nil => exact absurd rfl hne
      | cons a t => rfl
    rw [List.enumFrom_cons, List.flatMap_cons]
    dsimp only
    rw [hc, if_neg (by decide)]
    simp only [List.length_cons]
    rw [List.range_succ_eq_map, List.flatMap_cons, List.flatMap_map,
      ih (j + 1) (fun x hx => h x (List.mem_cons_of_mem _ hx))]
    have h0 : g (j + 0) ((c :: cs).getD 0 []) = g j c := by
      rw [Nat.add_zero]
      rfl
    rw [h0]
    congr 1
    apply List.flatMap_congr
    intro i hi
    show g (j + 1 + i) (cs.getD i []) = g (j + i.succ) ((c :: cs).getD i.succ [])
    rw [show j + i.succ = j + 1 + i by omega]
    rfl

theorem flatMap_singleton_eq_map {α β : Type} (l : List α) (f : α → β) :
    l.flatMap (fun x => [f x]) = l.map f := by
  induction l with
  | nil => rfl
  | cons a t ih => simp [List.flatMap_cons, ih]

/-- The exact file names the two naming policies produce agree. -/
theorem chunk_files_eq_spec (stem sheet : List Char) (idx : Nat)
    (fx fc fj fo : Bool) :
    chunk_files stem (sanitise_sheet_name sheet) idx fx fc fj fo =
      specFileNames stem sheet idx fx fc fj fo := by
  cases fx <;> cases fc <;> cases fj <;> cases fo <;> rfl

theorem chunk_loop_getD {α : Type} (k : Nat) (hk : 1 ≤ k) (i fuel : Nat)
    (df : List α) (hf : df.length ≤ fuel) (hi : i * k < df.length) :
    (chunk_loop k fuel df).getD i [] = (df.drop (i * k)).take k := by
  rw [List.getD_eq_getElem?_getD, chunk_loop_get k hk i fuel df hf hi]
  rfl

/-- Claim C6: every split artifact's file name is exactly
`{stem}_{sanitized_sheet}_part{index:03d}.{ext}` with a 1-based chunk index
zero-padded to width 3, and every assembled sheet is named `Sheet{index}`
with a 1-based unpadded index; splitting a 5-data-row table with
rows-per-file 2 produces 3 chunks of sizes [2, 2, 1] whose file names end in
`_part001`, `_part002`, `_part003`. -/
theorem artifact_naming :
    (∀ (α : Type) (stem sheet : List Char) (df : List α) (K : Int)
      (fx fc fj fo : Bool), df ≠ [] → 1 ≤ K →
      split_excel stem sheet df K fx fc fj fo =
        .ok ((List.range ((df.length + K.toNat - 1) / K.toNat)).flatMap
          (fun i => specFileNames stem sheet (i + 1) fx fc fj fo))) ∧
    (∀ (α : Type) (df : List α) (K : Int), df ≠ [] → 1 ≤ K →
      build_xlsx df K =
        .ok ((List.range ((df.length + (min K (MAX_EXCEL_ROWS : Int)).toNat - 1) /
            (min K (MAX_EXCEL_ROWS : Int)).toNat)).map
          (fun i => ("Sheet".toList ++ natToDigits (i + 1),
            (df.drop (i * (min K (MAX_EXCEL_ROWS : Int)).toNat)).take
              (min K (MAX_EXCEL_ROWS : Int)).toNat)))) ∧
    chunk_dataframe ([1, 2, 3, 4, 5] : List Nat) 2 = .ok [[1, 2], [3, 4], [5]] ∧
    split_excel ("data".toList) ("S".toList) ([1, 2, 3, 4, 5] : List Nat) 2
        true false false false =
      .ok ["data_S_part001.xlsx".toList, "data_S_part002.xlsx".toList,
        "data_S_part003.xlsx".toList] := by
  have hsplit : ∀ (α : Type) (stem sheet : List Char) (df : List α) (K : Int)
      (fx fc fj fo : Bool), df ≠ [] → 1 ≤ K →
      split_excel stem sheet df K fx fc fj fo =
        .ok ((List.range ((df.length + K.toNat - 1) / K.toNat)).flatMap
          (fun i => specFileNames stem sheet (i + 1) fx fc fj fo)) := by
    intro α stem sheet df K fx fc fj fo hdf hK
    have hk : 1 ≤ K.toNat := by omega
    have hne : df.isEmpty = false := by
      cases df with
      | nil => exact absurd rfl hdf
      | cons a t => rfl
    have hchunk : chunk_dataframe df K =
        .ok (chunk_loop K.toNat df.length df) := by
      simp [chunk_dataframe, show ¬ K ≤ 0 by omega, hne]
    have hnonempty : ∀ c ∈ chunk_loop K.toNat df.length df, c ≠ [] :=
      fun c hc => (chunk_loop_mem K.toNat df.length df c hc).2 hk
    simp only [split_excel, hne, Bool.false_eq_true, if_false, hchunk]
    rw [enumFrom_flatMap_ne_nil
      (fun i _ => chunk_files stem (sanitise_sheet_name sheet) i fx fc fj fo)
      (chunk_loop K.toNat df.length df) 1 hnonempty,
      chunk_loop_length K.toNat hk df.length df le_rfl]
    congr 1
    apply List.flatMap_congr
    intro i hi
    rw [show 1 + i = i + 1 by omega, chunk_files_eq_spec]
  refine ⟨hsplit, ?_, by rfl, ?_⟩
  · intro α df K hdf hK
    have hM : (MAX_EXCEL_ROWS : Int) = 1048576 := rfl
    have hk : 1 ≤ (min K (MAX_EXCEL_ROWS : Int)).toNat := by omega
    have hne : df.isEmpty = false := by
      cases df with
      | nil => exact absurd rfl hdf
      | cons a t => rfl
    have hchunk : chunk_dataframe df (min K (MAX_EXCEL_ROWS : Int)) =
        .ok (chunk_loop (min K (MAX_EXCEL_ROWS : Int)).toNat df.length df) := by
      simp [chunk_dataframe, show ¬ min K (MAX_EXCEL_ROWS : Int) ≤ 0 by omega, hne]
    have hnonempty :
        ∀ c ∈ chunk_loop (min K (MAX_EXCEL_ROWS : Int)).toNat df.length df, c ≠ [] :=
      fun c hc =>
        (chunk_loop_mem (min K (MAX_EXCEL_ROWS : Int)).toNat df.length df c hc).2 hk
    simp only [build_xlsx, show ¬ K ≤ 0 by omega, if_false, hne,
      Bool.false_eq_true, hchunk]
    rw [enumFrom_flatMap_ne_nil
      (fun i c => [("Sheet".toList ++ natToDigits i, c)])
      (chunk_loop (min K (MAX_EXCEL_ROWS : Int)).toNat df.length df) 1 hnonempty,
      chunk_loop_length (min K (MAX_EXCEL_ROWS : Int)).toNat hk df.length df le_rfl]
    congr 1
    rw [← flatMap_singleton_eq_map]
    apply List.flatMap_congr
    intro i hi
    have hilt : i < (df.length + (min K (MAX_EXCEL_ROWS : Int)).toNat - 1) /
        (min K (MAX_EXCEL_ROWS : Int)).toNat := List.mem_range.mp hi
    have hceil : (df.length + (min K (MAX_EXCEL_ROWS : Int)).toNat - 1) /
        (min K (MAX_EXCEL_ROWS : Int)).toNat =
        (df.length - 1) / (min K (MAX_EXCEL_ROWS : Int)).toNat + 1 := by
      rw [show df.length + (min K (MAX_EXCEL_ROWS : Int)).toNat - 1 =
        (df.length - 1) + (min K (MAX_EXCEL_ROWS : Int)).toNat by
          cases df with
          | nil => exact absurd rfl hdf
          | cons a t => simp only [List.length_cons]; omega,
        Nat.add_div_right _ (by omega)]
    have hik : i * (min K (MAX_EXCEL_ROWS : Int)).toNat < df.length := by
      rw [hceil] at hilt
      have h1 : i ≤ (df.length - 1) / (min K (MAX_EXCEL_ROWS : Int)).toNat := by
        omega
      have h2 := (Nat.le_div_iff_mul_le (show 0 <
        (min K (MAX_EXCEL_ROWS : Int)).toNat by omega)).mp h1
      have h3 : df.length ≠ 0 := by
        cases df with
        | nil => exact absurd rfl hdf
        | cons a t => simp
      omega
    rw [chunk_loop_getD _ hk i df.length df le_rfl hik, show 1 + i = i + 1 by omega]
  · exact (hsplit Nat ("data".toList) ("S".toList) [1, 2, 3, 4, 5] 2
      true false false false (by decide) (by decide)).trans (by rfl)

/-- Claim C6 witness: the split naming at `data`/`S` with 5 rows and
rows-per-file 2, and the assembled sheet names for 3 rows at 2 per sheet. -/
theorem artifact_naming_witness :
    split_excel ("data".toList) ("S".toList) ([1, 2, 3, 4, 5] : List Nat) 2
        true true false false =
      .ok ((List.range ((([1, 2, 3, 4, 5] : List Nat).length + (2 : Int).toNat - 1) /
          (2 : Int).toNat)).flatMap
        (fun i => specFileNames ("data".toList) ("S".toList) (i + 1)
          true true false false)) ∧
    build_xlsx ([1, 2, 3] : List Nat) 2 =
      .ok ((List.range ((([1, 2, 3] : List Nat).length +
            (min 2 (MAX_EXCEL_ROWS : Int)).toNat - 1) /
          (min 2 (MAX_EXCEL_ROWS : Int)).toNat)).map
        (fun i => ("Sheet".toList ++ natToDigits (i + 1),
          (([1, 2, 3] : List Nat).drop (i * (min 2 (MAX_EXCEL_ROWS : Int)).toNat)).take
            (min 2 (MAX_EXCEL_ROWS : Int)).toNat))) :=
  ⟨artifact_naming.1 Nat ("data".toList) ("S".toList) [1, 2, 3, 4, 5] 2
      true true false false (by decide) (by decide),
   artifact_naming.2.1 Nat [1, 2, 3] 2 (by decide) (by decide)⟩
